import Mathlib

/-!
# Verification of `@nolawnchairs/file-chunker`

Shallow embedding of the repository's two streaming state machines:

* `FileChunker.chunk` (src/src/chunk.ts): consumes the blocks delivered by a
  Node read stream, accumulates them in a buffer, cuts full `chunkSize`
  windows as intermediate results and ends with a final record carrying the
  remainder and the whole-file checksum.
* `FileJoiner.join` (the joiner source kept in src/README.md, lines 208-298):
  sorts a copy of the configured chunks by index, validates contiguity,
  validates each chunk's checksum while emitting its bytes, then validates
  the whole-file checksum and emits the final record.

Bytes are modelled as `List Nat`.  The SHA-256 primitive of `node:crypto` is
modelled abstractly: a hash object is the list of bytes fed to it so far
(`update` appends, matching Node's incremental hashing over the concatenated
input), and `digest('hex')` applies an arbitrary function
`hashHex : List Nat → String`.  Every theorem is proved for every such
function; witnesses instantiate it with a small executable one.
-/

/-- `config` argument of the `FileChunker` constructor (src/src/chunk.ts). -/
structure FileChunkerConfig where
  chunkSize : Nat
deriving DecidableEq, Repr

/-- The `ChunkResult` union of src/src/chunk.ts: `done: false` records become
`intermediate`, the `done: true` record becomes `final`. -/
inductive ChunkResult where
  | intermediate (index : Nat) (chunk : List Nat) (checksum : String)
  | final (chunk : List Nat) (finalChecksum : String)
deriving DecidableEq, Repr

/-- The inner `while (buffer.length >= this.config.chunkSize)` loop of
`FileChunker.chunk`: cuts the first `chunkSize` bytes as a window, yields it
with its own fresh digest, keeps the rest, and increments `index`.  Returns
the yielded results together with the remaining buffer and next index.
The JavaScript loop diverges when `chunkSize = 0` (the guard
`buffer.length >= 0` never fails); the embedding adds `0 < chunkSize` to the
guard to stay total, and agrees with the source for every positive size. -/
def cutLoop (hashHex : List Nat → String) (chunkSize : Nat) (buffer : List Nat)
    (index : Nat) : List ChunkResult × List Nat × Nat :=
  if h : 0 < chunkSize ∧ chunkSize ≤ buffer.length then
    let chunkToYield := buffer.take chunkSize
    let rest := buffer.drop chunkSize
    let r := cutLoop hashHex chunkSize rest (index + 1)
    (ChunkResult.intermediate index chunkToYield (hashHex chunkToYield) :: r.1,
      r.2.1, r.2.2)
  else
    ([], buffer, index)
termination_by buffer.length
decreasing_by
  simp only [List.length_drop]
  exact Nat.sub_lt (Nat.lt_of_lt_of_le h.1 h.2) h.1

/-- The body of `FileChunker.chunk` after stream creation: iterate over the
blocks the stream delivers (`for await (const chunk of stream)`), feeding each
to the running file digest (`hashed` accumulates the fed bytes) and appending
it to the buffer, cutting windows after each block; once the stream is
exhausted, finalize the file digest and yield the final record following the
source's three branches (non-empty remainder / empty file / exact multiple). -/
def chunkBlocks (hashHex : List Nat → String) (chunkSize : Nat) :
    List (List Nat) → List Nat → List Nat → Bool → Nat → List ChunkResult
  | [], hashed, buffer, hasYielded, _index =>
    let finalFileChecksum := hashHex hashed
    if buffer.length > 0 then
      [ChunkResult.final buffer finalFileChecksum]
    else if !hasYielded then
      [ChunkResult.final [] finalFileChecksum]
    else
      [ChunkResult.final [] finalFileChecksum]
  | block :: rest, hashed, buffer, hasYielded, index =>
    let r := cutLoop hashHex chunkSize (buffer ++ block) index
    r.1 ++ chunkBlocks hashHex chunkSize rest (hashed ++ block) r.2.1
      (hasYielded || !r.1.isEmpty) r.2.2

/-- `FileChunker.chunk` (src/src/chunk.ts).  The read stream is the external
collaborator: `blocks` is the sequence of byte blocks it delivers, whose
concatenation is the file's content. -/
def FileChunker.chunk (hashHex : List Nat → String) (config : FileChunkerConfig)
    (blocks : List (List Nat)) : List ChunkResult :=
  chunkBlocks hashHex config.chunkSize blocks [] [] false 0

/-- The `FileChunk` input record of the joiner source (`buffer`, `index`,
`checksum`). -/
structure FileChunk where
  buffer : List Nat
  index : Nat
  checksum : String
deriving DecidableEq, Repr

/-- `FileJoinerConfig`: expected whole-file checksum plus the chunk set. -/
structure FileJoinerConfig where
  finalChecksum : String
  chunks : List FileChunk
deriving DecidableEq, Repr

/-- The `JoinResult` union of the joiner source. -/
inductive JoinResult where
  | intermediate (output : List Nat) (checksum : String)
  | final (finalChecksum : String) (sourceChunks : List (Nat × String))
deriving DecidableEq, Repr

/-- The errors `join()` can throw.  `genericMissing i` is the plain
`new Error('Missing chunk at index i')` of the contiguity loop;
`invalidChunk` mirrors the `InvalidChunkError` class of src/src/errors.ts
(defined there but never thrown by the joiner source); the last two mirror
`InvalidChecksumError` and `InvalidFinalChecksumError` with the data their
messages carry. -/
inductive JoinError where
  | genericMissing (expectedIndex : Nat)
  | invalidChunk (message : String)
  | invalidChecksum (index : Nat) (expected computed : String)
  | invalidFinalChecksum (expected computed : String)
deriving DecidableEq, Repr

/-- The comparator `(a, b) => a.index - b.index` as the ordering it induces. -/
def chunkLE (a b : FileChunk) : Prop := a.index ≤ b.index

instance : DecidableRel chunkLE := fun a b => Nat.decLe a.index b.index

instance : IsTotal FileChunk chunkLE := ⟨fun a b => Nat.le_total a.index b.index⟩

instance : IsTrans FileChunk chunkLE := ⟨fun _ _ _ => Nat.le_trans⟩

/-- `[...this.config.chunks].sort((a, b) => a.index - b.index)`: a stable sort
of a copy of the chunk array, ascending by `index`. -/
def sortChunks (l : List FileChunk) : List FileChunk :=
  List.insertionSort chunkLE l

/-- The contiguity loop of `join()`: `for i in 0..count-1`, the sorted chunk
at position `i` must have `index == i`; returns the first `i` where it does
not (the index named by the thrown `Error`), or `none`. -/
def firstMissing (i : Nat) : List FileChunk → Option Nat
  | [] => none
  | c :: rest => if c.index ≠ i then some i else firstMissing (i + 1) rest

/-- The emission loop of `join()` over the sorted chunks: recompute each
chunk's digest; on mismatch stop with `InvalidChecksumError` (that chunk not
emitted); on match feed the bytes to the running file digest (`acc`), push
`(index, checksum)` onto the manifest, and yield the intermediate result.
Returns the yielded results, the final digest accumulation, the manifest, and
the error if one was thrown. -/
def joinLoop (hashHex : List Nat → String) :
    List FileChunk → List Nat → List (Nat × String) →
    List JoinResult × List Nat × List (Nat × String) × Option JoinError
  | [], acc, manifest => ([], acc, manifest, none)
  | c :: rest, acc, manifest =>
    let calculatedChecksum := hashHex c.buffer
    if calculatedChecksum ≠ c.checksum then
      ([], acc, manifest,
        some (JoinError.invalidChecksum c.index c.checksum calculatedChecksum))
    else
      let r := joinLoop hashHex rest (acc ++ c.buffer)
        (manifest ++ [(c.index, c.checksum)])
      (JoinResult.intermediate c.buffer c.checksum :: r.1, r.2.1, r.2.2.1, r.2.2.2)

/-- `FileJoiner.join` (joiner source in src/README.md): returns the sequence
of results yielded before completion or failure, together with the thrown
error (`none` on a clean run ending in the final record). -/
def FileJoiner.join (hashHex : List Nat → String) (config : FileJoinerConfig) :
    List JoinResult × Option JoinError :=
  let sortedChunks := sortChunks config.chunks
  match firstMissing 0 sortedChunks with
  | some i => ([], some (JoinError.genericMissing i))
  | none =>
    let r := joinLoop hashHex sortedChunks [] []
    match r.2.2.2 with
    | some e => (r.1, some e)
    | none =>
      let calculatedFinalChecksum := hashHex r.2.1
      if calculatedFinalChecksum ≠ config.finalChecksum then
        (r.1, some (JoinError.invalidFinalChecksum config.finalChecksum
          calculatedFinalChecksum))
      else
        (r.1 ++ [JoinResult.final config.finalChecksum r.2.2.1], none)

/-- Bytes of an intermediate join result (`result.output`). -/
def interBytes : JoinResult → Option (List Nat)
  | JoinResult.intermediate out _ => some out
  | _ => none

/-- Concatenation of all intermediate bytes a joiner run emitted. -/
def joinedOutput (rs : List JoinResult) : List Nat :=
  (rs.filterMap interBytes).flatten

/-- Round-trip plumbing: each chunker `intermediate` becomes a joiner chunk
as-is, and the `final`'s remainder becomes one more chunk whose index is the
number of intermediates seen before it and whose declared checksum is the
digest of its bytes (the repository's integration test construction). -/
def joinerInputAux (hashHex : List Nat → String) (k : Nat) :
    List ChunkResult → List FileChunk
  | [] => []
  | ChunkResult.intermediate i ch cks :: rest =>
    ⟨ch, i, cks⟩ :: joinerInputAux hashHex (k + 1) rest
  | ChunkResult.final rem _ :: rest =>
    ⟨rem, k, hashHex rem⟩ :: joinerInputAux hashHex k rest

/-- The chunk set fed back to the joiner in the round-trip claim. -/
def joinerInput (hashHex : List Nat → String) (rs : List ChunkResult) :
    List FileChunk :=
  joinerInputAux hashHex 0 rs

/-- The whole-file checksum reported by the chunker run (the `finalChecksum`
of its last result when that is a `final` record; `""` otherwise). -/
def finalChecksumOf : List ChunkResult → String
  | [] => ""
  | [ChunkResult.intermediate _ _ _] => ""
  | [ChunkResult.final _ fck] => fck
  | _ :: y :: rest => finalChecksumOf (y :: rest)

/-- Mutation model for `join()`'s treatment of the configured chunk array:
JavaScript arrays are heap references, `store` maps a reference to its
current contents, `cfgRef` is `this.config.chunks` and `fresh` the array
allocated by the spread `[...this.config.chunks]`.  `join()` first copies the
configured array into the fresh one and then sorts the fresh one in place
(`Array.prototype.sort` mutates its receiver); these are the only writes it
performs on chunk arrays.  The function returns the store after both. -/
def joinHeapEffect (store : Nat → List FileChunk) (cfgRef fresh : Nat) :
    Nat → List FileChunk :=
  let afterCopy : Nat → List FileChunk :=
    fun r => if r = fresh then store cfgRef else store r
  fun r => if r = fresh then sortChunks (afterCopy fresh) else afterCopy r

/-- The error classes defined in src/src/errors.ts. -/
def errorsTsClasses : List String :=
  ["InvalidChunkError", "InvalidChecksumError", "InvalidFinalChecksumError"]

/-- The error names src/src/index.ts re-exports `from './errors'`. -/
def indexTsErrorExports : List String :=
  ["InvalidChunkError", "MissingChunkError", "InvalidChecksumError",
    "InvalidFinalChecksumError"]

/-- The error class name the repository's test
`should throw MissingChunkError when chunk is null` (src/test/chunk.spec.ts)
imports `from '../src/errors'` and expects `join()` to throw when a chunk's
`getBuffer` accessor resolves to `null`. -/
def testExpectedMissingError : String := "MissingChunkError"

/-! ## Closed form of the chunker -/

/-- The `j`-th fixed-size window of `content`, as the intermediate result the
chunker emits for it. -/
def interAt (hashHex : List Nat → String) (chunkSize : Nat) (content : List Nat)
    (j : Nat) : ChunkResult :=
  ChunkResult.intermediate j ((content.drop (j * chunkSize)).take chunkSize)
    (hashHex ((content.drop (j * chunkSize)).take chunkSize))

/-- A window lying entirely inside `l` is unaffected by appending `t`. -/
theorem window_append {α : Type} (l t : List α) (p S : Nat)
    (h : p + S ≤ l.length) : ((l ++ t).drop p).take S = (l.drop p).take S := by
  rw [List.drop_append_of_le_length (by omega)]
  rw [List.take_append_of_le_length (by rw [List.length_drop]; omega)]

/-- `interAt` over content extended on the right agrees with `interAt` over
the original content for windows that fit. -/
theorem interAt_append (hashHex : List Nat → String) (S : Nat)
    (l t : List Nat) (q : Nat) (h : q * S + S ≤ l.length) :
    interAt hashHex S (l ++ t) q = interAt hashHex S l q := by
  unfold interAt
  rw [window_append l t (q * S) S h]

/-- Closed form of the window-cutting loop: on a buffer of length `m` it
yields the `m / S` full windows with indices `idx, idx+1, …`, leaves the last
`m % S` bytes in the buffer, and advances the index by `m / S`. -/
theorem cutLoop_eq (hashHex : List Nat → String) {S : Nat} (hS : 0 < S) :
    ∀ (n : Nat) (buf : List Nat), buf.length ≤ n → ∀ (idx : Nat),
    cutLoop hashHex S buf idx =
      ((List.range (buf.length / S)).map (fun j =>
        ChunkResult.intermediate (idx + j) ((buf.drop (j * S)).take S)
          (hashHex ((buf.drop (j * S)).take S))),
        buf.drop (buf.length / S * S), idx + buf.length / S) := by
  intro n
  induction n with
  | zero =>
    intro buf hlen idx
    have hb : buf = [] := List.eq_nil_of_length_eq_zero (Nat.le_zero.mp hlen)
    subst hb
    rw [cutLoop, dif_neg (by simp; omega)]
    simp [Nat.div_eq_of_lt hS]
  | succ n ih =>
    intro buf hlen idx
    by_cases h : S ≤ buf.length
    · rw [cutLoop, dif_pos ⟨hS, h⟩]
      dsimp only
      have hrest : (buf.drop S).length ≤ n := by
        rw [List.length_drop]; omega
      rw [ih (buf.drop S) hrest (idx + 1)]
      have hdl : (buf.drop S).length = buf.length - S := List.length_drop S buf
      have hdiv : buf.length / S = (buf.length - S) / S + 1 :=
        Nat.div_eq_sub_div hS h
      rw [hdl, hdiv, List.range_succ_eq_map]
      simp only [List.map_cons, List.map_map]
      refine congrArg₂ _ ?_ (congrArg₂ _ ?_ ?_)
      · refine congrArg₂ _ ?_ ?_
        · simp
        · refine List.map_congr_left (fun j _hj => ?_)
          simp only [Function.comp]
          rw [List.drop_drop]
          have h1 : S + j * S = (j + 1) * S := by ring
          have h2 : idx + 1 + j = idx + (j + 1) := by omega
          rw [h1, h2]
      · rw [List.drop_drop]
        have : S + (buf.length - S) / S * S = ((buf.length - S) / S + 1) * S := by
          ring
        rw [this]
      · omega
    · rw [cutLoop, dif_neg (fun hc => h hc.2)]
      have hz : buf.length / S = 0 := Nat.div_eq_of_lt (Nat.lt_of_not_le h)
      simp [hz]

/-- Splitting a contiguous block of indexed emissions at an interior point. -/
theorem range_map_split {α : Type} (f : Nat → α) (idx k T : Nat)
    (h : idx + k ≤ T) :
    (List.range (T - idx)).map (fun j => f (idx + j)) =
      (List.range k).map (fun j => f (idx + j)) ++
      (List.range (T - (idx + k))).map (fun j => f (idx + k + j)) := by
  have hT : T - idx = k + (T - (idx + k)) := by omega
  rw [hT, List.range_add, List.map_append, List.map_map]
  refine congrArg₂ _ rfl (List.map_congr_left (fun j _hj => ?_))
  simp only [Function.comp]
  rw [Nat.add_assoc]

/-- Closed form of the chunker body: running it from a state where `buffer`
holds exactly the not-yet-emitted tail of the bytes already fed to the file
digest (`idx` full windows emitted so far) produces the remaining full
windows of the total content followed by the final record carrying the
remainder and the digest of the whole content. -/
theorem chunkBlocks_eq (hashHex : List Nat → String) {S : Nat} (hS : 0 < S) :
    ∀ (blocks : List (List Nat)) (hashed : List Nat) (hy : Bool) (idx : Nat),
    idx = hashed.length / S →
    chunkBlocks hashHex S blocks hashed (hashed.drop (idx * S)) hy idx =
      (List.range ((hashed ++ blocks.flatten).length / S - idx)).map
        (fun j => interAt hashHex S (hashed ++ blocks.flatten) (idx + j)) ++
      [ChunkResult.final
        ((hashed ++ blocks.flatten).drop
          ((hashed ++ blocks.flatten).length / S * S))
        (hashHex (hashed ++ blocks.flatten))] := by
  intro blocks
  induction blocks with
  | nil =>
    intro hashed hy idx hidx
    subst hidx
    rw [chunkBlocks]
    simp only [List.flatten_nil, List.append_nil, Nat.sub_self,
      List.range_zero, List.map_nil, List.nil_append]
    by_cases hb : (hashed.drop (hashed.length / S * S)).length > 0
    · rw [if_pos hb]
    · rw [if_neg hb]
      have hnil : hashed.drop (hashed.length / S * S) = [] :=
        List.eq_nil_of_length_eq_zero (by omega)
      rw [hnil]
      simp
  | cons b bs ih =>
    intro hashed hy idx hidx
    rw [chunkBlocks]
    have hle : idx * S ≤ hashed.length := by
      subst hidx; exact Nat.div_mul_le_self _ _
    have hbuf : hashed.drop (idx * S) ++ b = (hashed ++ b).drop (idx * S) :=
      (List.drop_append_of_le_length hle).symm
    rw [hbuf]
    rw [cutLoop_eq hashHex hS ((hashed ++ b).drop (idx * S)).length _ le_rfl idx]
    dsimp only
    set h2 := hashed ++ b with hh2
    set m := (h2.drop (idx * S)).length with hmdef
    set k := m / S with hkdef
    have hle2 : idx * S ≤ h2.length := by
      rw [hh2, List.length_append]; omega
    have hsum : idx * S + m = h2.length := by
      rw [hmdef, List.length_drop]; omega
    have hkm : k * S ≤ m := by rw [hkdef]; exact Nat.div_mul_le_self m S
    have hidx2 : idx + k = h2.length / S := by
      have h1 : h2.length = m + S * idx := by rw [← hsum]; ring
      rw [h1, Nat.add_mul_div_left _ _ hS, ← hkdef, Nat.add_comm]
    have hdropdrop : (h2.drop (idx * S)).drop (k * S) = h2.drop ((idx + k) * S) := by
      rw [List.drop_drop]
      congr 1
      ring
    rw [hdropdrop, ih h2 _ (idx + k) hidx2]
    have htot : hashed ++ (b :: bs).flatten = h2 ++ bs.flatten := by
      rw [List.flatten_cons, hh2, List.append_assoc]
    rw [htot]
    have hmapL : (List.range k).map (fun j =>
        ChunkResult.intermediate (idx + j)
          (((h2.drop (idx * S)).drop (j * S)).take S)
          (hashHex (((h2.drop (idx * S)).drop (j * S)).take S))) =
        (List.range k).map (fun j => interAt hashHex S (h2 ++ bs.flatten) (idx + j)) := by
      refine List.map_congr_left (fun j hj => ?_)
      have hjk : j < k := List.mem_range.mp hj
      have hwin : (j + 1) * S ≤ m :=
        le_trans (Nat.mul_le_mul_right S (by omega)) hkm
      have hfit : (idx + j) * S + S ≤ h2.length := by
        have he : (idx + j) * S + S = idx * S + (j + 1) * S := by ring
        rw [he]
        calc idx * S + (j + 1) * S ≤ idx * S + m := Nat.add_le_add_left hwin _
          _ = h2.length := hsum
      rw [List.drop_drop]
      have harg : idx * S + j * S = (idx + j) * S := by ring
      rw [harg, interAt_append hashHex S h2 bs.flatten (idx + j) hfit]
      rfl
    rw [hmapL]
    have hT : idx + k ≤ (h2 ++ bs.flatten).length / S := by
      rw [hidx2]
      exact Nat.div_le_div_right (by simp)
    have hAB : (List.range ((h2 ++ bs.flatten).length / S - idx)).map
        (fun j => interAt hashHex S (h2 ++ bs.flatten) (idx + j)) =
        (List.range k).map (fun j => interAt hashHex S (h2 ++ bs.flatten) (idx + j)) ++
        (List.range ((h2 ++ bs.flatten).length / S - (idx + k))).map
          (fun j => interAt hashHex S (h2 ++ bs.flatten) (idx + k + j)) :=
      range_map_split (fun q => interAt hashHex S (h2 ++ bs.flatten) q) idx k
        ((h2 ++ bs.flatten).length / S) hT
    rw [hAB, List.append_assoc, List.append_assoc]

/-- Closed form of `FileChunker.chunk`: for content `c` (the concatenation of
the delivered blocks) of length `L` and positive `chunkSize = S`, the run
emits the `L / S` full windows of `c` as intermediates with indices
`0, 1, …, L/S - 1` in order, followed by exactly one final record carrying
the last `L mod S` bytes and the digest of the whole content. -/
theorem chunk_eq (hashHex : List Nat → String) {S : Nat} (hS : 0 < S)
    (blocks : List (List Nat)) :
    FileChunker.chunk hashHex ⟨S⟩ blocks =
      (List.range (blocks.flatten.length / S)).map
        (interAt hashHex S blocks.flatten) ++
      [ChunkResult.final
        (blocks.flatten.drop (blocks.flatten.length / S * S))
        (hashHex blocks.flatten)] := by
  have h := chunkBlocks_eq hashHex hS blocks [] false 0 (by simp)
  simp only [List.nil_append, Nat.zero_mul, List.drop_nil, Nat.sub_zero,
    Nat.zero_add, zero_add] at h
  exact h

/-- Concatenating the first `k` fixed-size windows of `c` recovers the first
`k * S` bytes of `c`. -/
theorem flatten_windows (c : List Nat) (S : Nat) :
    ∀ k, ((List.range k).map (fun j => (c.drop (j * S)).take S)).flatten =
      c.take (k * S) := by
  intro k
  induction k with
  | zero => simp
  | succ k ih =>
    rw [List.range_succ, List.map_append, List.flatten_append, ih]
    simp only [List.map_cons, List.map_nil, List.flatten_cons, List.flatten_nil,
      List.append_nil]
    have hm : (k + 1) * S = k * S + S := by ring
    rw [hm, List.take_add]

/-- `done: false` test on a chunker result. -/
def isInter : ChunkResult → Bool
  | ChunkResult.intermediate _ _ _ => true
  | _ => false

/-- `done: true` test on a chunker result. -/
def isFinal : ChunkResult → Bool
  | ChunkResult.final _ _ => true
  | _ => false

/-- The `index` field of an intermediate chunker result. -/
def interIndex : ChunkResult → Option Nat
  | ChunkResult.intermediate i _ _ => some i
  | _ => none

/-- The buffer states during a chunker run: for each block the stream
delivers, the buffer right after `Buffer.concat([buffer, chunk])` and right
after the window-cutting loop, mirroring the updates of `chunkBlocks`. -/
def chunkTrace (hashHex : List Nat → String) (chunkSize : Nat) :
    List (List Nat) → List Nat → Nat → List (List Nat × List Nat)
  | [], _buffer, _idx => []
  | block :: rest, buffer, idx =>
    let r := cutLoop hashHex chunkSize (buffer ++ block) idx
    (buffer ++ block, r.2.1) :: chunkTrace hashHex chunkSize rest r.2.1 r.2.2

/-- After the cutting loop the buffer holds exactly the last
`length mod chunkSize` bytes, in particular fewer than `chunkSize`. -/
theorem cutLoop_buffer_lt (hashHex : List Nat → String) {S : Nat} (hS : 0 < S)
    (buf : List Nat) (idx : Nat) :
    (cutLoop hashHex S buf idx).2.1.length < S := by
  rw [cutLoop_eq hashHex hS buf.length buf le_rfl idx]
  simp only [List.length_drop]
  have hdm : S * (buf.length / S) + buf.length % S = buf.length :=
    Nat.div_add_mod buf.length S
  have hc : buf.length / S * S = S * (buf.length / S) := Nat.mul_comm _ _
  have hm : buf.length % S < S := Nat.mod_lt _ hS
  omega

/-- Invariant behind the buffer bound: starting below `chunkSize`, every
post-append buffer stays within `2 * chunkSize - 1` and every post-cut buffer
below `chunkSize`, provided the stream's blocks respect the
`highWaterMark = chunkSize` bound. -/
theorem chunkTrace_bound (hashHex : List Nat → String) {S : Nat} (hS : 0 < S) :
    ∀ (blocks : List (List Nat)), (∀ b ∈ blocks, b.length ≤ S) →
    ∀ (buffer : List Nat) (idx : Nat), buffer.length < S →
    ∀ pa pc, (pa, pc) ∈ chunkTrace hashHex S blocks buffer idx →
    pa.length ≤ 2 * S - 1 ∧ pc.length < S := by
  intro blocks
  induction blocks with
  | nil =>
    intro _ buffer idx _ pa pc hmem
    simp [chunkTrace] at hmem
  | cons b bs ih =>
    intro hblocks buffer idx hbuf pa pc hmem
    rw [chunkTrace] at hmem
    rcases List.mem_cons.mp hmem with hhead | htail
    · have hb : b.length ≤ S := hblocks b (by simp)
      have h1 : pa = buffer ++ b := congrArg Prod.fst hhead
      have h2 : pc = (cutLoop hashHex S (buffer ++ b) idx).2.1 :=
        congrArg Prod.snd hhead
      constructor
      · rw [h1, List.length_append]; omega
      · rw [h2]; exact cutLoop_buffer_lt hashHex hS _ _
    · exact ih (fun x hx => hblocks x (by simp [hx]))
        (cutLoop hashHex S (buffer ++ b) idx).2.1
        (cutLoop hashHex S (buffer ++ b) idx).2.2
        (cutLoop_buffer_lt hashHex hS _ _) pa pc htail

/-! ## Joiner lemmas -/

/-- The contiguity loop accepts exactly when the indices, in sorted position
order, are `i, i+1, …`. -/
theorem firstMissing_none_iff :
    ∀ (l : List FileChunk) (i : Nat),
    firstMissing i l = none ↔ l.map FileChunk.index = List.range' i l.length := by
  intro l
  induction l with
  | nil => intro i; simp [firstMissing]
  | cons c rest ih =>
    intro i
    rw [firstMissing]
    by_cases h : c.index = i
    · rw [if_neg (fun hne => hne h), ih (i + 1)]
      simp [List.range'_succ, h]
    · rw [if_pos h]
      simp [List.range'_succ, h]

/-- When the contiguity loop rejects at `j`, every position before `j` held
the expected index and position `j` did not (or the list ended there). -/
theorem firstMissing_some_spec :
    ∀ (l : List FileChunk) (i j : Nat), firstMissing i l = some j →
    ∃ n, j = i + n ∧ (l.map FileChunk.index).take n = List.range' i n ∧
      (l.map FileChunk.index)[n]? ≠ some (i + n) := by
  intro l
  induction l with
  | nil => intro i j h; simp [firstMissing] at h
  | cons c rest ih =>
    intro i j h
    rw [firstMissing] at h
    by_cases hc : c.index = i
    · rw [if_neg (fun hne => hne hc)] at h
      obtain ⟨n, hn1, hn2, hn3⟩ := ih (i + 1) j h
      refine ⟨n + 1, by omega, ?_, ?_⟩
      · simp only [List.map_cons, List.take_succ_cons, hn2, List.range'_succ, hc]
      · simpa [Nat.add_assoc, Nat.add_comm 1 n] using hn3
    · rw [if_pos hc] at h
      obtain rfl : i = j := Option.some_inj.mp h
      exact ⟨0, by omega, by simp, by simpa using hc⟩

/-- A run of the emission loop in which every chunk's recomputed digest
matches its declared checksum: every chunk is emitted in order, the running
digest accumulates all buffers, the manifest collects all
`(index, checksum)` pairs, and no error is thrown. -/
theorem joinLoop_ok (hashHex : List Nat → String) :
    ∀ (l : List FileChunk), (∀ c ∈ l, hashHex c.buffer = c.checksum) →
    ∀ acc manifest, joinLoop hashHex l acc manifest =
      (l.map (fun c => JoinResult.intermediate c.buffer c.checksum),
        acc ++ (l.map FileChunk.buffer).flatten,
        manifest ++ l.map (fun c => (c.index, c.checksum)),
        none) := by
  intro l
  induction l with
  | nil => intro _ acc manifest; simp [joinLoop]
  | cons c rest ih =>
    intro hpass acc manifest
    have hc : hashHex c.buffer = c.checksum := hpass c (by simp)
    rw [joinLoop, if_neg (fun hne => hne hc)]
    rw [ih (fun x hx => hpass x (by simp [hx])) (acc ++ c.buffer)
      (manifest ++ [(c.index, c.checksum)])]
    simp [hc, List.append_assoc]

/-- A run of the emission loop hitting its first digest mismatch at chunk
`c`: the passing chunks before `c` are emitted and recorded, then the loop
stops with `InvalidChecksumError` carrying `c`'s index, its declared
checksum, and the recomputed digest — without emitting `c`'s bytes. -/
theorem joinLoop_fail (hashHex : List Nat → String) (c : FileChunk)
    (hfail : hashHex c.buffer ≠ c.checksum) :
    ∀ (pre suf : List FileChunk), (∀ x ∈ pre, hashHex x.buffer = x.checksum) →
    ∀ acc manifest, joinLoop hashHex (pre ++ c :: suf) acc manifest =
      (pre.map (fun x => JoinResult.intermediate x.buffer x.checksum),
        acc ++ (pre.map FileChunk.buffer).flatten,
        manifest ++ pre.map (fun x => (x.index, x.checksum)),
        some (JoinError.invalidChecksum c.index c.checksum (hashHex c.buffer))) := by
  intro pre
  induction pre with
  | nil =>
    intro suf _ acc manifest
    simp only [List.nil_append]
    rw [joinLoop, if_pos hfail]
    simp
  | cons x rest ih =>
    intro suf hpass acc manifest
    have hx : hashHex x.buffer = x.checksum := hpass x (by simp)
    rw [List.cons_append, joinLoop, if_neg (fun hne => hne hx)]
    rw [ih suf (fun y hy => hpass y (by simp [hy])) (acc ++ x.buffer)
      (manifest ++ [(x.index, x.checksum)])]
    simp [hx, List.append_assoc]

/-- The sorted copy is a permutation of the configured chunk array. -/
theorem sortChunks_perm (l : List FileChunk) : (sortChunks l).Perm l :=
  List.perm_insertionSort chunkLE l

/-- The sorted copy is ascending by `index`. -/
theorem sortChunks_sorted (l : List FileChunk) :
    List.Sorted chunkLE (sortChunks l) :=
  List.sorted_insertionSort chunkLE l

/-- Sorting an already index-ascending list leaves it unchanged. -/
theorem sortChunks_of_sorted {l : List FileChunk}
    (h : List.Sorted chunkLE l) : sortChunks l = l :=
  List.Sorted.insertionSort_eq h

/-- With pairwise-distinct indices, the sorted copy depends only on the
multiset of chunks: any two permutations of the same chunk set sort to the
same array. -/
theorem sortChunks_eq_of_perm {l1 l2 : List FileChunk} (hperm : l1.Perm l2)
    (hnd : (l1.map FileChunk.index).Nodup) : sortChunks l1 = sortChunks l2 := by
  haveI : IsAntisymm FileChunk (fun a b => a.index < b.index) :=
    ⟨fun a b h1 h2 => absurd (Nat.lt_trans h1 h2) (Nat.lt_irrefl _)⟩
  have hp12 : (sortChunks l1).Perm (sortChunks l2) :=
    ((sortChunks_perm l1).trans hperm).trans (sortChunks_perm l2).symm
  have strict : ∀ (l : List FileChunk), (l.map FileChunk.index).Nodup →
      List.Sorted (fun a b : FileChunk => a.index < b.index) (sortChunks l) := by
    intro l hl
    have hs : List.Pairwise chunkLE (sortChunks l) := sortChunks_sorted l
    have hmapnd : ((sortChunks l).map FileChunk.index).Nodup :=
      ((sortChunks_perm l).map FileChunk.index).nodup_iff.mpr hl
    have hne : List.Pairwise (fun a b : FileChunk => a.index ≠ b.index)
        (sortChunks l) := List.pairwise_map.mp hmapnd
    exact (hs.and hne).imp (fun h => Nat.lt_of_le_of_ne h.1 h.2)
  have hnd2 : (l2.map FileChunk.index).Nodup :=
    (hperm.map FileChunk.index).nodup_iff.mp hnd
  exact List.eq_of_perm_of_sorted hp12 (strict l1 hnd) (strict l2 hnd2)

/-- `join()` when the contiguity loop rejects at expected index `i`: the
plain `Error` is thrown before anything is yielded. -/
theorem join_missing (hashHex : List Nat → String) (cfg : FileJoinerConfig)
    (i : Nat) (h : firstMissing 0 (sortChunks cfg.chunks) = some i) :
    FileJoiner.join hashHex cfg = ([], some (JoinError.genericMissing i)) := by
  simp only [FileJoiner.join]
  rw [h]

/-- `join()` when contiguity holds and every chunk's digest matches: all
intermediates are yielded in sorted order and the run ends either in
`InvalidFinalChecksumError` or in the final record, according to the
whole-file digest comparison. -/
theorem join_clean (hashHex : List Nat → String) (cfg : FileJoinerConfig)
    (hfm : firstMissing 0 (sortChunks cfg.chunks) = none)
    (hpass : ∀ c ∈ sortChunks cfg.chunks, hashHex c.buffer = c.checksum) :
    FileJoiner.join hashHex cfg =
      if hashHex (((sortChunks cfg.chunks).map FileChunk.buffer).flatten) ≠
          cfg.finalChecksum then
        ((sortChunks cfg.chunks).map
            (fun c => JoinResult.intermediate c.buffer c.checksum),
          some (JoinError.invalidFinalChecksum cfg.finalChecksum
            (hashHex (((sortChunks cfg.chunks).map FileChunk.buffer).flatten))))
      else
        ((sortChunks cfg.chunks).map
            (fun c => JoinResult.intermediate c.buffer c.checksum) ++
          [JoinResult.final cfg.finalChecksum
            ((sortChunks cfg.chunks).map (fun c => (c.index, c.checksum)))],
          none) := by
  simp only [FileJoiner.join]
  rw [hfm, joinLoop_ok hashHex _ hpass [] []]
  simp only [List.nil_append]

/-- `join()` when contiguity holds and the first digest mismatch happens at
chunk `c`: the valid chunks before `c` are emitted, then
`InvalidChecksumError` is thrown with `c`'s index and both digests, and `c`'s
bytes are not emitted. -/
theorem join_invalid_checksum (hashHex : List Nat → String)
    (cfg : FileJoinerConfig) (pre : List FileChunk) (c : FileChunk)
    (suf : List FileChunk)
    (hsorted : sortChunks cfg.chunks = pre ++ c :: suf)
    (hfm : firstMissing 0 (sortChunks cfg.chunks) = none)
    (hpass : ∀ x ∈ pre, hashHex x.buffer = x.checksum)
    (hfail : hashHex c.buffer ≠ c.checksum) :
    FileJoiner.join hashHex cfg =
      (pre.map (fun x => JoinResult.intermediate x.buffer x.checksum),
        some (JoinError.invalidChecksum c.index c.checksum (hashHex c.buffer))) := by
  simp only [FileJoiner.join]
  rw [hfm, hsorted, joinLoop_fail hashHex c hfail pre suf hpass [] []]

/-! ## Round-trip helpers -/

/-- The whole-file checksum read off a chunker run ending in a final record. -/
theorem finalChecksumOf_concat (l : List ChunkResult) (rem : List Nat)
    (fck : String) :
    finalChecksumOf (l ++ [ChunkResult.final rem fck]) = fck := by
  induction l with
  | nil => rfl
  | cons x rest ih =>
    cases hr : rest ++ [ChunkResult.final rem fck] with
    | nil => exact absurd hr (by simp)
    | cons y t =>
      rw [List.cons_append, hr, finalChecksumOf, ← hr]
      exact ih

/-- Feeding the joiner-input builder a run of intermediates followed by the
final record: the intermediates become chunks verbatim and the remainder
becomes one more chunk indexed by the number of intermediates. -/
theorem joinerInputAux_eq (hashHex : List Nat → String) (f : Nat → List Nat)
    (rem : List Nat) (fck : String) :
    ∀ (js : List Nat) (k : Nat),
    joinerInputAux hashHex k
      (js.map (fun j => ChunkResult.intermediate j (f j) (hashHex (f j))) ++
        [ChunkResult.final rem fck]) =
      js.map (fun j => (⟨f j, j, hashHex (f j)⟩ : FileChunk)) ++
        [⟨rem, k + js.length, hashHex rem⟩] := by
  intro js
  induction js with
  | nil => intro k; rfl
  | cons j js ih =>
    intro k
    simp only [List.map_cons, List.cons_append]
    rw [joinerInputAux, ih (k + 1)]
    have harith : k + 1 + js.length = k + (js.length + 1) := by omega
    simp [harith]

/-- A chunk list whose index projection is `0, 1, …, n-1` is ascending. -/
theorem sorted_of_index_range {l : List FileChunk} {n : Nat}
    (h : l.map FileChunk.index = List.range n) : List.Sorted chunkLE l := by
  have hp : List.Pairwise (· ≤ ·) (l.map FileChunk.index) := by
    rw [h]
    exact (List.pairwise_lt_range n).imp Nat.le_of_lt
  have hstep : List.Pairwise (fun a b : FileChunk => a.index ≤ b.index) l :=
    List.pairwise_map.mp hp
  exact hstep

/-- The bytes a clean joiner run emits are the concatenated chunk buffers. -/
theorem joinedOutput_inters (l : List FileChunk) (a : String)
    (b : List (Nat × String)) :
    joinedOutput (l.map (fun c => JoinResult.intermediate c.buffer c.checksum) ++
      [JoinResult.final a b]) = (l.map FileChunk.buffer).flatten := by
  unfold joinedOutput
  rw [List.filterMap_append, List.filterMap_map]
  have h1 : List.filterMap (interBytes ∘ fun c =>
      JoinResult.intermediate c.buffer c.checksum) l = l.map FileChunk.buffer := by
    induction l with
    | nil => rfl
    | cons x rest ih => simp [List.filterMap_cons, interBytes, ih]
  rw [h1]
  simp [interBytes]

/-- C1.  Round-trip: for every byte content (delivered in any blocks) and
every positive `chunkSize`, feeding the Joiner every Chunker intermediate
plus the final record's remainder as one more chunk (declared checksum = its
digest) and the final record's whole-file checksum as the expected final
checksum succeeds without error, and the concatenation of the Joiner's
emitted intermediate bytes is the original content, byte for byte. -/
theorem roundTrip_reconstructs (hashHex : List Nat → String) {S : Nat}
    (hS : 0 < S) (blocks : List (List Nat)) :
    (FileJoiner.join hashHex
        ⟨finalChecksumOf (FileChunker.chunk hashHex ⟨S⟩ blocks),
          joinerInput hashHex (FileChunker.chunk hashHex ⟨S⟩ blocks)⟩).2 = none ∧
    joinedOutput (FileJoiner.join hashHex
        ⟨finalChecksumOf (FileChunker.chunk hashHex ⟨S⟩ blocks),
          joinerInput hashHex (FileChunker.chunk hashHex ⟨S⟩ blocks)⟩).1 =
      blocks.flatten := by
  set c := blocks.flatten with hc
  set K := c.length / S with hK
  have hout : FileChunker.chunk hashHex ⟨S⟩ blocks =
      (List.range K).map (fun j => ChunkResult.intermediate j
        ((c.drop (j * S)).take S) (hashHex ((c.drop (j * S)).take S))) ++
      [ChunkResult.final (c.drop (K * S)) (hashHex c)] := by
    rw [chunk_eq hashHex hS blocks]
    rfl
  have hjoin := joinerInputAux_eq hashHex (fun j => (c.drop (j * S)).take S)
    (c.drop (K * S)) (hashHex c) (List.range K) 0
  rw [List.length_range, Nat.zero_add] at hjoin
  have hinput : joinerInput hashHex (FileChunker.chunk hashHex ⟨S⟩ blocks) =
      (List.range K).map (fun j =>
        (⟨(c.drop (j * S)).take S, j,
          hashHex ((c.drop (j * S)).take S)⟩ : FileChunk)) ++
      [⟨c.drop (K * S), K, hashHex (c.drop (K * S))⟩] := by
    rw [hout]
    exact hjoin
  have hfck : finalChecksumOf (FileChunker.chunk hashHex ⟨S⟩ blocks) =
      hashHex c := by
    rw [hout]
    exact finalChecksumOf_concat _ _ _
  set L2 : List FileChunk := (List.range K).map (fun j =>
      (⟨(c.drop (j * S)).take S, j,
        hashHex ((c.drop (j * S)).take S)⟩ : FileChunk)) ++
    [⟨c.drop (K * S), K, hashHex (c.drop (K * S))⟩] with hL2
  have hidxmap : L2.map FileChunk.index = List.range (K + 1) := by
    rw [hL2, List.map_append, List.map_map, List.range_succ]
    have hcomp : List.map (FileChunk.index ∘ fun j =>
        (⟨(c.drop (j * S)).take S, j,
          hashHex ((c.drop (j * S)).take S)⟩ : FileChunk))
        (List.range K) = List.range K := by
      rw [show (FileChunk.index ∘ fun j =>
        (⟨(c.drop (j * S)).take S, j,
          hashHex ((c.drop (j * S)).take S)⟩ : FileChunk)) =
        (fun j : Nat => j) from rfl, List.map_id']
    rw [hcomp]
    simp
  have hlen : L2.length = K + 1 := by
    rw [hL2]; simp
  have hfm : firstMissing 0 L2 = none := by
    rw [firstMissing_none_iff, hlen, ← List.range_eq_range']
    exact hidxmap
  have hsorted : sortChunks L2 = L2 :=
    sortChunks_of_sorted (sorted_of_index_range hidxmap)
  have hpass : ∀ x ∈ L2, hashHex x.buffer = x.checksum := by
    intro x hx
    rw [hL2] at hx
    rcases List.mem_append.mp hx with hmem | hmem
    · obtain ⟨j, _, rfl⟩ := List.mem_map.mp hmem
      rfl
    · rw [List.mem_singleton.mp hmem]
  have hflat : (L2.map FileChunk.buffer).flatten = c := by
    rw [hL2, List.map_append, List.map_map, List.flatten_append]
    simp only [List.map_cons, List.map_nil, List.flatten_cons, List.flatten_nil,
      List.append_nil]
    have h1 : ((List.range K).map (FileChunk.buffer ∘ fun j =>
        (⟨(c.drop (j * S)).take S, j,
          hashHex ((c.drop (j * S)).take S)⟩ : FileChunk))).flatten =
        c.take (K * S) := flatten_windows c S K
    rw [h1, List.take_append_drop]
  have hfm2 : firstMissing 0 (sortChunks L2) = none := by
    rw [hsorted]; exact hfm
  have hpass2 : ∀ x ∈ sortChunks L2, hashHex x.buffer = x.checksum := by
    rw [hsorted]; exact hpass
  have hjc := join_clean hashHex ⟨hashHex c, L2⟩ hfm2 hpass2
  rw [hsorted, hflat] at hjc
  rw [if_neg (fun hcon => hcon rfl)] at hjc
  rw [hfck, hinput, hjc]
  constructor
  · rfl
  · show joinedOutput (L2.map
        (fun x => JoinResult.intermediate x.buffer x.checksum) ++
      [JoinResult.final (hashHex c)
        (L2.map (fun x => (x.index, x.checksum)))]) = c
    rw [joinedOutput_inters L2 _ _]
    exact hflat

/-- C2.  Chunker output shape: for content of length `L` (in any block
delivery) and positive `chunkSize = S`, `chunk()` emits exactly `L / S`
intermediates, whose indices in emission order are `0, 1, …, L/S - 1`, each
carrying exactly `S` bytes, followed by exactly one final record as the last
element whose bytes have length `L mod S`; for empty content it emits zero
intermediates and one final record with empty bytes. -/
theorem chunker_shape (hashHex : List Nat → String) {S : Nat} (hS : 0 < S)
    (blocks : List (List Nat)) :
    (FileChunker.chunk hashHex ⟨S⟩ blocks).countP isInter =
      blocks.flatten.length / S ∧
    (FileChunker.chunk hashHex ⟨S⟩ blocks).filterMap interIndex =
      List.range (blocks.flatten.length / S) ∧
    (∀ i ch cks, ChunkResult.intermediate i ch cks ∈
      FileChunker.chunk hashHex ⟨S⟩ blocks → ch.length = S) ∧
    (FileChunker.chunk hashHex ⟨S⟩ blocks).countP isFinal = 1 ∧
    (∃ rem, (FileChunker.chunk hashHex ⟨S⟩ blocks).getLast? =
        some (ChunkResult.final rem (hashHex blocks.flatten)) ∧
      rem.length = blocks.flatten.length % S) ∧
    (blocks.flatten = [] → FileChunker.chunk hashHex ⟨S⟩ blocks =
      [ChunkResult.final [] (hashHex [])]) := by
  refine ⟨?_, ?_, ?_, ?_, ?_, ?_⟩
  · rw [chunk_eq hashHex hS, List.countP_append, List.countP_map]
    have h1 : List.countP (isInter ∘ interAt hashHex S blocks.flatten)
        (List.range (blocks.flatten.length / S)) =
        (List.range (blocks.flatten.length / S)).length :=
      List.countP_eq_length.mpr (fun a _ => rfl)
    rw [h1, List.length_range]
    rfl
  · rw [chunk_eq hashHex hS, List.filterMap_append, List.filterMap_map]
    rw [show (interIndex ∘ interAt hashHex S blocks.flatten) =
      (some : Nat → Option Nat) from rfl, List.filterMap_some]
    simp [interIndex]
  · intro i ch cks hmem
    rw [chunk_eq hashHex hS] at hmem
    rcases List.mem_append.mp hmem with hm | hm
    · obtain ⟨j, hjmem, heq⟩ := List.mem_map.mp hm
      simp only [interAt] at heq
      injection heq with h1 h2 h3
      rw [← h2, List.length_take, List.length_drop]
      have hjK : j < blocks.flatten.length / S := List.mem_range.mp hjmem
      have hstep : (j + 1) * S ≤ blocks.flatten.length / S * S :=
        Nat.mul_le_mul_right S (by omega)
      have hfit : j * S + S ≤ blocks.flatten.length := by
        have hms : blocks.flatten.length / S * S ≤ blocks.flatten.length :=
          Nat.div_mul_le_self _ _
        have he : j * S + S = (j + 1) * S := by ring
        omega
      omega
    · exact absurd (List.mem_singleton.mp hm) (by simp)
  · rw [chunk_eq hashHex hS, List.countP_append, List.countP_map]
    have h1 : List.countP (isFinal ∘ interAt hashHex S blocks.flatten)
        (List.range (blocks.flatten.length / S)) = 0 :=
      List.countP_eq_zero.mpr (fun a _ h => by simp [Function.comp, interAt, isFinal] at h)
    rw [h1]
    rfl
  · rw [chunk_eq hashHex hS]
    refine ⟨blocks.flatten.drop (blocks.flatten.length / S * S),
      List.getLast?_concat _, ?_⟩
    have hdm : S * (blocks.flatten.length / S) + blocks.flatten.length % S =
      blocks.flatten.length := Nat.div_add_mod _ _
    have hcm : blocks.flatten.length / S * S = S * (blocks.flatten.length / S) :=
      Nat.mul_comm _ _
    rw [List.length_drop]
    omega
  · intro h0
    rw [chunk_eq hashHex hS, h0]
    simp

/-- A small executable stand-in digest used by the concrete witnesses
(theorems hold for every digest function; witnesses pick this one). -/
def listHash : List Nat → String
  | [] => "e"
  | b :: rest => Nat.repr b ++ "," ++ listHash rest

/-- C3 counterexample: on the chunk set with indices `{0, 2}` (a gap for a
would-be 2-chunk set) the joiner throws the plain generic `Error` of the
contiguity loop, which is not the `InvalidChunkError` class of
src/src/errors.ts (that class is never thrown by the joiner source). -/
theorem join_contiguity_error_class_cex :
    FileJoiner.join listHash ⟨"x", [⟨[], 0, "a"⟩, ⟨[], 2, "b"⟩]⟩ =
      ([], some (JoinError.genericMissing 1)) ∧
    ∀ m, some (JoinError.genericMissing 1) ≠ some (JoinError.invalidChunk m) := by
  constructor
  · rfl
  · intro m h
    simp at h

/-- C3 (amended).  Joiner contiguity failure: for every chunk set whose
indices, once sorted ascending, do not form the exact range `0..count-1`,
`join()` fails with the plain generic `Error` (message
`Missing chunk at index i`) — not with the `InvalidChunkError` class —
identifying the first expected index `i` at which the mismatch occurs, and it
fails before emitting any result or any bytes. -/
theorem join_contiguity_failure (hashHex : List Nat → String)
    (cfg : FileJoinerConfig)
    (h : (sortChunks cfg.chunks).map FileChunk.index ≠
      List.range (sortChunks cfg.chunks).length) :
    ∃ i, FileJoiner.join hashHex cfg = ([], some (JoinError.genericMissing i)) ∧
      ((sortChunks cfg.chunks).map FileChunk.index).take i = List.range i ∧
      ((sortChunks cfg.chunks).map FileChunk.index)[i]? ≠ some i := by
  cases hfm : firstMissing 0 (sortChunks cfg.chunks) with
  | none =>
    have hrange := (firstMissing_none_iff _ 0).mp hfm
    rw [← List.range_eq_range'] at hrange
    exact absurd hrange h
  | some j =>
    obtain ⟨n, hn1, hn2, hn3⟩ := firstMissing_some_spec _ 0 j hfm
    have hfm2 : firstMissing 0 (sortChunks cfg.chunks) = some n := by
      rw [hfm]
      exact congrArg some (by omega)
    refine ⟨n, join_missing hashHex cfg n hfm2, ?_, ?_⟩
    · rw [List.range_eq_range']
      exact hn2
    · simpa using hn3

/-- C4.  The missing-data check: the repository's own test suite
(src/test/chunk.spec.ts) expects `join()` to throw `MissingChunkError` when a
chunk's `getBuffer` accessor resolves to `null`, and src/src/index.ts
re-exports `MissingChunkError` from `./errors` — but src/src/errors.ts
defines no such class, and the joiner source reads `chunk.buffer` directly
with no missing-data check at all.  The claim describes the intended
behaviour; the code in the snapshot contradicts its own tests and
declarations. -/
theorem missingChunkError_not_defined :
    testExpectedMissingError ∈ indexTsErrorExports ∧
    testExpectedMissingError ∉ errorsTsClasses := by
  constructor
  · decide
  · decide

/-- C5.  Joiner per-chunk tamper detection: with contiguity passing, when the
sorted chunks split as `pre ++ c :: suf` where every chunk of `pre` passes
its digest check and `c` is the first whose recomputed digest differs from
its declared checksum, `join()` emits exactly the intermediates of `pre`
(each for a chunk whose computed digest equalled its declared checksum) and
then fails with `InvalidChecksumError` carrying `c`'s index, its declared
checksum and the computed digest, without emitting `c`'s bytes. -/
theorem join_tamper_detected (hashHex : List Nat → String)
    (cfg : FileJoinerConfig) (pre : List FileChunk) (c : FileChunk)
    (suf : List FileChunk)
    (hsorted : sortChunks cfg.chunks = pre ++ c :: suf)
    (hfm : firstMissing 0 (sortChunks cfg.chunks) = none)
    (hpass : ∀ x ∈ pre, hashHex x.buffer = x.checksum)
    (hfail : hashHex c.buffer ≠ c.checksum) :
    FileJoiner.join hashHex cfg =
      (pre.map (fun x => JoinResult.intermediate x.buffer x.checksum),
        some (JoinError.invalidChecksum c.index c.checksum
          (hashHex c.buffer))) :=
  join_invalid_checksum hashHex cfg pre c suf hsorted hfm hpass hfail

/-- C6.  Joiner whole-file tamper detection: when contiguity holds and every
chunk passes its own digest check, the only possible failure is the final
digest comparison: if the digest of the reassembled bytes differs from the
expected final checksum, `join()` raises `InvalidFinalChecksumError` carrying
both digests after emitting every intermediate (one per chunk) and no final
record; if it matches, the run completes with the final record. -/
theorem join_final_tamper (hashHex : List Nat → String)
    (cfg : FileJoinerConfig)
    (hfm : firstMissing 0 (sortChunks cfg.chunks) = none)
    (hpass : ∀ c ∈ sortChunks cfg.chunks, hashHex c.buffer = c.checksum) :
    (hashHex (((sortChunks cfg.chunks).map FileChunk.buffer).flatten) ≠
        cfg.finalChecksum →
      FileJoiner.join hashHex cfg =
        ((sortChunks cfg.chunks).map
            (fun c => JoinResult.intermediate c.buffer c.checksum),
          some (JoinError.invalidFinalChecksum cfg.finalChecksum
            (hashHex (((sortChunks cfg.chunks).map FileChunk.buffer).flatten))))) ∧
    (hashHex (((sortChunks cfg.chunks).map FileChunk.buffer).flatten) =
        cfg.finalChecksum →
      FileJoiner.join hashHex cfg =
        ((sortChunks cfg.chunks).map
            (fun c => JoinResult.intermediate c.buffer c.checksum) ++
          [JoinResult.final cfg.finalChecksum
            ((sortChunks cfg.chunks).map (fun c => (c.index, c.checksum)))],
          none)) := by
  have hjc := join_clean hashHex cfg hfm hpass
  constructor
  · intro hne
    rw [hjc, if_pos hne]
  · intro heq
    rw [hjc, if_neg (fun hcon => hcon heq)]

/-- C7.  Joiner order independence: for chunk sets with pairwise-distinct
indices, any two permutations of the same chunk set (same expected final
checksum) produce identical joiner output — and whenever the contiguity
check passes, the sorted emission order is exactly indices `0, 1, …`,
ascending. -/
theorem join_order_independent (hashHex : List Nat → String)
    (cfg1 cfg2 : FileJoinerConfig) (hperm : cfg1.chunks.Perm cfg2.chunks)
    (hfc : cfg1.finalChecksum = cfg2.finalChecksum)
    (hnd : (cfg1.chunks.map FileChunk.index).Nodup) :
    FileJoiner.join hashHex cfg1 = FileJoiner.join hashHex cfg2 ∧
    (firstMissing 0 (sortChunks cfg1.chunks) = none →
      (sortChunks cfg1.chunks).map FileChunk.index =
        List.range (sortChunks cfg1.chunks).length) := by
  constructor
  · have hs : sortChunks cfg1.chunks = sortChunks cfg2.chunks :=
      sortChunks_eq_of_perm hperm hnd
    simp only [FileJoiner.join, hs, hfc]
  · intro hfm
    rw [List.range_eq_range']
    exact (firstMissing_none_iff _ 0).mp hfm

/-- C8.  Chunker buffer bound: along any run whose delivered blocks respect
the `highWaterMark = chunkSize` bound, every post-append buffer state holds
at most `2 * chunkSize - 1` bytes (the cutting loop only shrinks it from
there) and every buffer state immediately after the window-cutting loop is
strictly shorter than `chunkSize`. -/
theorem chunker_buffer_bound (hashHex : List Nat → String) {S : Nat}
    (hS : 0 < S) (blocks : List (List Nat))
    (hblocks : ∀ b ∈ blocks, b.length ≤ S) :
    ∀ pa pc, (pa, pc) ∈ chunkTrace hashHex S blocks [] 0 →
      pa.length ≤ 2 * S - 1 ∧ pc.length < S :=
  chunkTrace_bound hashHex hS blocks hblocks [] 0 hS

/-- C9.  Joiner does not mutate its input: in the heap model of `join()`'s
array writes, the configured chunk array is untouched — the spread copy is
written to a fresh reference and the in-place sort mutates only that fresh
reference. -/
theorem join_preserves_config_chunks (store : Nat → List FileChunk)
    (cfgRef fresh : Nat) (h : fresh ≠ cfgRef) :
    joinHeapEffect store cfgRef fresh cfgRef = store cfgRef ∧
    joinHeapEffect store cfgRef fresh fresh = sortChunks (store cfgRef) := by
  simp only [joinHeapEffect]
  constructor
  · rw [if_neg (Ne.symm h)]
    exact ite_self _
  · simp

/-- C10.  Joiner on the empty chunk set: contiguity holds vacuously, no
intermediate result and no bytes are emitted, and the run ends in exactly one
final record with an empty manifest precisely when the expected final
checksum equals the digest of the empty byte sequence — otherwise it raises
`InvalidFinalChecksumError` carrying both digests. -/
theorem join_empty_chunks (hashHex : List Nat → String) (fc : String) :
    FileJoiner.join hashHex ⟨fc, []⟩ =
      if hashHex [] ≠ fc then
        ([], some (JoinError.invalidFinalChecksum fc (hashHex [])))
      else ([JoinResult.final fc []], none) := rfl

/-! ## Concrete witnesses -/

/-- Witness for the round-trip theorem at `chunkSize = 2`,
content `[1, 2, 3]`. -/
theorem roundTrip_reconstructs_witness :
    (0 : Nat) < 2 ∧
    ((FileJoiner.join listHash
        ⟨finalChecksumOf (FileChunker.chunk listHash ⟨2⟩ [[1, 2, 3]]),
          joinerInput listHash (FileChunker.chunk listHash ⟨2⟩ [[1, 2, 3]])⟩).2 =
        none ∧
      joinedOutput (FileJoiner.join listHash
        ⟨finalChecksumOf (FileChunker.chunk listHash ⟨2⟩ [[1, 2, 3]]),
          joinerInput listHash (FileChunker.chunk listHash ⟨2⟩ [[1, 2, 3]])⟩).1 =
        [[1, 2, 3]].flatten) :=
  ⟨by decide, roundTrip_reconstructs listHash (by decide : (0 : Nat) < 2) [[1, 2, 3]]⟩

/-- Witness for the output-shape theorem at `chunkSize = 2`,
content `[5, 6, 7]`. -/
theorem chunker_shape_witness :
    (0 : Nat) < 2 ∧
    ((FileChunker.chunk listHash ⟨2⟩ [[5, 6, 7]]).countP isInter =
        [[5, 6, 7]].flatten.length / 2 ∧
      (FileChunker.chunk listHash ⟨2⟩ [[5, 6, 7]]).filterMap interIndex =
        List.range ([[5, 6, 7]].flatten.length / 2) ∧
      (∀ i ch cks, ChunkResult.intermediate i ch cks ∈
        FileChunker.chunk listHash ⟨2⟩ [[5, 6, 7]] → ch.length = 2) ∧
      (FileChunker.chunk listHash ⟨2⟩ [[5, 6, 7]]).countP isFinal = 1 ∧
      (∃ rem, (FileChunker.chunk listHash ⟨2⟩ [[5, 6, 7]]).getLast? =
          some (ChunkResult.final rem (listHash [[5, 6, 7]].flatten)) ∧
        rem.length = [[5, 6, 7]].flatten.length % 2) ∧
      ([[5, 6, 7]].flatten = [] → FileChunker.chunk listHash ⟨2⟩ [[5, 6, 7]] =
        [ChunkResult.final [] (listHash [])])) :=
  ⟨by decide, chunker_shape listHash (by decide : (0 : Nat) < 2) [[5, 6, 7]]⟩

/-- Witness for the amended contiguity theorem on the `{0, 2}` gap set. -/
theorem join_contiguity_failure_witness :
    ((sortChunks (⟨"x", [⟨[], 0, "a"⟩, ⟨[], 2, "b"⟩]⟩ :
        FileJoinerConfig).chunks).map FileChunk.index ≠
      List.range (sortChunks (⟨"x", [⟨[], 0, "a"⟩, ⟨[], 2, "b"⟩]⟩ :
        FileJoinerConfig).chunks).length) ∧
    (∃ i, FileJoiner.join listHash ⟨"x", [⟨[], 0, "a"⟩, ⟨[], 2, "b"⟩]⟩ =
        ([], some (JoinError.genericMissing i)) ∧
      ((sortChunks (⟨"x", [⟨[], 0, "a"⟩, ⟨[], 2, "b"⟩]⟩ :
          FileJoinerConfig).chunks).map FileChunk.index).take i =
        List.range i ∧
      ((sortChunks (⟨"x", [⟨[], 0, "a"⟩, ⟨[], 2, "b"⟩]⟩ :
          FileJoinerConfig).chunks).map FileChunk.index)[i]? ≠ some i) :=
  ⟨by decide, join_contiguity_failure listHash
    ⟨"x", [⟨[], 0, "a"⟩, ⟨[], 2, "b"⟩]⟩ (by decide)⟩

/-- Witness for per-chunk tamper detection: second chunk declares checksum
`"bad"` while its digest is `listHash [2]`. -/
theorem join_tamper_detected_witness :
    sortChunks (⟨"f", [⟨[1], 0, listHash [1]⟩, ⟨[2], 1, "bad"⟩]⟩ :
        FileJoinerConfig).chunks =
      [⟨[1], 0, listHash [1]⟩] ++ (⟨[2], 1, "bad"⟩ : FileChunk) :: [] ∧
    firstMissing 0 (sortChunks (⟨"f", [⟨[1], 0, listHash [1]⟩,
        ⟨[2], 1, "bad"⟩]⟩ : FileJoinerConfig).chunks) = none ∧
    (∀ x ∈ [(⟨[1], 0, listHash [1]⟩ : FileChunk)],
      listHash x.buffer = x.checksum) ∧
    listHash [2] ≠ "bad" ∧
    FileJoiner.join listHash ⟨"f", [⟨[1], 0, listHash [1]⟩, ⟨[2], 1, "bad"⟩]⟩ =
      ([(⟨[1], 0, listHash [1]⟩ : FileChunk)].map
          (fun x => JoinResult.intermediate x.buffer x.checksum),
        some (JoinError.invalidChecksum 1 "bad" (listHash [2]))) :=
  ⟨by decide, by decide, by decide, by decide,
    join_tamper_detected listHash
      ⟨"f", [⟨[1], 0, listHash [1]⟩, ⟨[2], 1, "bad"⟩]⟩
      [⟨[1], 0, listHash [1]⟩] ⟨[2], 1, "bad"⟩ [] (by decide) (by decide)
      (by decide) (by decide)⟩

/-- Witness for whole-file tamper detection: one valid chunk, wrong expected
final checksum. -/
theorem join_final_tamper_witness :
    firstMissing 0 (sortChunks (⟨"nope", [⟨[1], 0, listHash [1]⟩]⟩ :
        FileJoinerConfig).chunks) = none ∧
    (∀ c ∈ sortChunks (⟨"nope", [⟨[1], 0, listHash [1]⟩]⟩ :
        FileJoinerConfig).chunks, listHash c.buffer = c.checksum) ∧
    ((listHash (((sortChunks (⟨"nope", [⟨[1], 0, listHash [1]⟩]⟩ :
          FileJoinerConfig).chunks).map FileChunk.buffer).flatten) ≠ "nope" →
      FileJoiner.join listHash ⟨"nope", [⟨[1], 0, listHash [1]⟩]⟩ =
        ((sortChunks (⟨"nope", [⟨[1], 0, listHash [1]⟩]⟩ :
            FileJoinerConfig).chunks).map
            (fun c => JoinResult.intermediate c.buffer c.checksum),
          some (JoinError.invalidFinalChecksum "nope"
            (listHash (((sortChunks (⟨"nope", [⟨[1], 0, listHash [1]⟩]⟩ :
              FileJoinerConfig).chunks).map FileChunk.buffer).flatten))))) ∧
    (listHash (((sortChunks (⟨"nope", [⟨[1], 0, listHash [1]⟩]⟩ :
          FileJoinerConfig).chunks).map FileChunk.buffer).flatten) = "nope" →
      FileJoiner.join listHash ⟨"nope", [⟨[1], 0, listHash [1]⟩]⟩ =
        ((sortChunks (⟨"nope", [⟨[1], 0, listHash [1]⟩]⟩ :
            FileJoinerConfig).chunks).map
            (fun c => JoinResult.intermediate c.buffer c.checksum) ++
          [JoinResult.final "nope"
            ((sortChunks (⟨"nope", [⟨[1], 0, listHash [1]⟩]⟩ :
              FileJoinerConfig).chunks).map (fun c => (c.index, c.checksum)))],
          none))) :=
  ⟨by decide, by decide,
    join_final_tamper listHash ⟨"nope", [⟨[1], 0, listHash [1]⟩]⟩
      (by decide) (by decide)⟩

/-- Witness for order independence: the same two chunks listed in reverse
versus sorted order. -/
theorem join_order_independent_witness :
    ([(⟨[2], 1, "b"⟩ : FileChunk), ⟨[1], 0, "a"⟩].Perm
      [(⟨[1], 0, "a"⟩ : FileChunk), ⟨[2], 1, "b"⟩]) ∧
    ("f" : String) = "f" ∧
    ([(⟨[2], 1, "b"⟩ : FileChunk), ⟨[1], 0, "a"⟩].map FileChunk.index).Nodup ∧
    (FileJoiner.join listHash ⟨"f", [⟨[2], 1, "b"⟩, ⟨[1], 0, "a"⟩]⟩ =
      FileJoiner.join listHash ⟨"f", [⟨[1], 0, "a"⟩, ⟨[2], 1, "b"⟩]⟩ ∧
    (firstMissing 0 (sortChunks (⟨"f", [⟨[2], 1, "b"⟩, ⟨[1], 0, "a"⟩]⟩ :
        FileJoinerConfig).chunks) = none →
      (sortChunks (⟨"f", [⟨[2], 1, "b"⟩, ⟨[1], 0, "a"⟩]⟩ :
          FileJoinerConfig).chunks).map FileChunk.index =
        List.range (sortChunks (⟨"f", [⟨[2], 1, "b"⟩, ⟨[1], 0, "a"⟩]⟩ :
          FileJoinerConfig).chunks).length)) :=
  ⟨List.Perm.swap _ _ _, rfl, by decide,
    join_order_independent listHash
      ⟨"f", [⟨[2], 1, "b"⟩, ⟨[1], 0, "a"⟩]⟩
      ⟨"f", [⟨[1], 0, "a"⟩, ⟨[2], 1, "b"⟩]⟩
      (List.Perm.swap _ _ _) rfl (by decide)⟩

/-- Witness for the buffer bound at `chunkSize = 2` with blocks of sizes
2 and 1. -/
theorem chunker_buffer_bound_witness :
    (0 : Nat) < 2 ∧
    (∀ b ∈ [[1, 2], [3]], b.length ≤ 2) ∧
    (∀ pa pc, (pa, pc) ∈ chunkTrace listHash 2 [[1, 2], [3]] [] 0 →
      pa.length ≤ 2 * 2 - 1 ∧ pc.length < 2) :=
  ⟨by decide, by decide,
    chunker_buffer_bound listHash (by decide : (0 : Nat) < 2) [[1, 2], [3]]
      (by decide)⟩

/-- Witness for the no-mutation theorem on a concrete two-reference store. -/
theorem join_preserves_config_chunks_witness :
    (1 : Nat) ≠ 0 ∧
    (joinHeapEffect (fun _ => [(⟨[3], 0, "c"⟩ : FileChunk)]) 0 1 0 =
        (fun _ => [(⟨[3], 0, "c"⟩ : FileChunk)] : Nat → List FileChunk) 0 ∧
      joinHeapEffect (fun _ => [(⟨[3], 0, "c"⟩ : FileChunk)]) 0 1 1 =
        sortChunks ((fun _ => [(⟨[3], 0, "c"⟩ : FileChunk)] :
          Nat → List FileChunk) 0)) :=
  ⟨by decide,
    join_preserves_config_chunks (fun _ => [⟨[3], 0, "c"⟩]) 0 1 (by decide)⟩
